import Mathlib

set_option maxRecDepth 100000

/-!
Shallow embedding of the Google-Safe-Browsing-DNSBL-Generator repository
(`modules/db_utils.py`, `modules/safebrowsing.py`) and proofs about it.

Database tables are modelled as Lean lists of row structures, SQL statements
as pure list transformations, machine words as `Nat` with explicit `% 2 ^ 32`,
and Python exceptions as `Option`/`Except` results.
-/

/-! ## SHA-256 (model of Python `hashlib.sha256`), over `Nat` bytes/words -/

/-- Reduce a `Nat` to a 32-bit word. -/
def mod32 (x : Nat) : Nat := x % 4294967296

/-- 32-bit right rotation: low `n` bits wrap to the top. -/
def rotr32 (n x : Nat) : Nat := (x / 2 ^ n) ||| ((x % 2 ^ n) * 2 ^ (32 - n))

/-- Bitwise complement within 32 bits. -/
def not32 (x : Nat) : Nat := 4294967295 ^^^ x

def ch32 (e f g : Nat) : Nat := (e &&& f) ^^^ (not32 e &&& g)

def maj32 (a b c : Nat) : Nat := (a &&& b) ^^^ (a &&& c) ^^^ (b &&& c)

def bigSigma0 (x : Nat) : Nat := rotr32 2 x ^^^ rotr32 13 x ^^^ rotr32 22 x

def bigSigma1 (x : Nat) : Nat := rotr32 6 x ^^^ rotr32 11 x ^^^ rotr32 25 x

def smallSigma0 (x : Nat) : Nat := rotr32 7 x ^^^ rotr32 18 x ^^^ (x / 2 ^ 3)

def smallSigma1 (x : Nat) : Nat := rotr32 17 x ^^^ rotr32 19 x ^^^ (x / 2 ^ 10)

/-- The 64 SHA-256 round constants (FIPS 180-4). -/
def sha256K : List Nat :=
  [1116352408, 1899447441, 3049323471, 3921009573, 961987163,
   1508970993, 2453635748, 2870763221, 3624381080, 310598401,
   607225278, 1426881987, 1925078388, 2162078206, 2614888103,
   3248222580, 3835390401, 4022224774, 264347078, 604807628,
   770255983, 1249150122, 1555081692, 1996064986, 2554220882,
   2821834349, 2952996808, 3210313671, 3336571891, 3584528711,
   113926993, 338241895, 666307205, 773529912, 1294757372,
   1396182291, 1695183700, 1986661051, 2177026350, 2456956037,
   2730485921, 2820302411, 3259730800, 3345764771, 3516065817,
   3600352804, 4094571909, 275423344, 430227734, 506948616,
   659060556, 883997877, 958139571, 1322822218, 1537002063,
   1747873779, 1955562222, 2024104815, 2227730452, 2361852424,
   2428436474, 2756734187, 3204031479, 3329325298]

/-- Running hash state: eight 32-bit words. -/
structure Sha256State where
  a : Nat
  b : Nat
  c : Nat
  d : Nat
  e : Nat
  f : Nat
  g : Nat
  hh : Nat
  deriving DecidableEq

/-- Initial hash value (FIPS 180-4). -/
def sha256Init : Sha256State :=
  ⟨1779033703, 3144134277, 1013904242, 2773480762,
   1359893119, 2600822924, 528734635, 1541459225⟩

/-- One compression round, consuming a `(constant, scheduleWord)` pair. -/
def sha256Round (s : Sha256State) (kw : Nat × Nat) : Sha256State :=
  let t1 := mod32 (s.hh + bigSigma1 s.e + ch32 s.e s.f s.g + kw.1 + kw.2)
  let t2 := mod32 (bigSigma0 s.a + maj32 s.a s.b s.c)
  ⟨mod32 (t1 + t2), s.a, s.b, s.c, mod32 (s.d + t1), s.e, s.f, s.g⟩

/-- Extend a 16-word block schedule by `n` further words. -/
def extendSchedule (ws : List Nat) : Nat → List Nat
  | 0 => ws
  | n + 1 =>
    let m := ws.length
    let w := mod32 (ws.getD (m - 16) 0 + smallSigma0 (ws.getD (m - 15) 0) +
                    ws.getD (m - 7) 0 + smallSigma1 (ws.getD (m - 2) 0))
    extendSchedule (ws ++ [w]) n

/-- Pack big-endian groups of four bytes into 32-bit words. -/
def bytesToWords : List Nat → List Nat
  | a :: b :: c :: d :: rest =>
    (a * 16777216 + b * 65536 + c * 256 + d) :: bytesToWords rest
  | _ => []

/-- Compress one 64-byte block into the running state. -/
def sha256Compress (s : Sha256State) (block : List Nat) : Sha256State :=
  let w := extendSchedule (bytesToWords block) 48
  let t := (sha256K.zip w).foldl sha256Round s
  ⟨mod32 (s.a + t.a), mod32 (s.b + t.b), mod32 (s.c + t.c), mod32 (s.d + t.d),
   mod32 (s.e + t.e), mod32 (s.f + t.f), mod32 (s.g + t.g), mod32 (s.hh + t.hh)⟩

/-- Big-endian 8-byte rendering of a length in bits. -/
def lengthBytes (n : Nat) : List Nat :=
  [n / 2 ^ 56 % 256, n / 2 ^ 48 % 256, n / 2 ^ 40 % 256, n / 2 ^ 32 % 256,
   n / 2 ^ 24 % 256, n / 2 ^ 16 % 256, n / 2 ^ 8 % 256, n % 256]

/-- SHA-256 padding: `0x80`, zeros to 56 mod 64, then the 64-bit bit length. -/
def padMessage (msg : List Nat) : List Nat :=
  msg ++ [128] ++ List.replicate ((64 - (msg.length + 9) % 64) % 64) 0 ++
    lengthBytes (8 * msg.length)

/-- Fuel-driven worker for `chunked`; the fuel only forces termination and is
always instantiated with the length of the list being split. -/
def chunkedFuel (cap : Nat) : Nat → List α → List (List α)
  | _, [] => []
  | 0, _ :: _ => []
  | fuel + 1, x :: xs => (x :: xs).take cap :: chunkedFuel cap fuel ((x :: xs).drop cap)

/-- Split a list into consecutive chunks of at most `cap` elements
(model of `more_itertools.chunked`; also reused to split padded SHA input). -/
def chunked (cap : Nat) (l : List α) : List (List α) :=
  if cap = 0 then [] else chunkedFuel cap l.length l

/-- Big-endian bytes of one 32-bit word. -/
def wordBytes (w : Nat) : List Nat :=
  [w / 16777216 % 256, w / 65536 % 256, w / 256 % 256, w % 256]

/-- Serialize the final state as the 32-byte digest. -/
def digestBytes (s : Sha256State) : List Nat :=
  wordBytes s.a ++ wordBytes s.b ++ wordBytes s.c ++ wordBytes s.d ++
  wordBytes s.e ++ wordBytes s.f ++ wordBytes s.g ++ wordBytes s.hh

/-- SHA-256 of a byte string (model of `hashlib.sha256(...).digest()`). -/
def sha256 (msg : List Nat) : List Nat :=
  digestBytes ((chunked 64 (padMessage msg)).foldl sha256Compress sha256Init)

/-- UTF-8 encoding of a string as `Nat` bytes (model of Python `str.encode()`;
this is exactly the byte content of `String.toUTF8`). -/
def strBytes (s : String) : List Nat :=
  (s.data.flatMap String.utf8EncodeChar).map UInt8.toNat

/-- Model of `db_utils.compute_url_hash`: SHA-256 of the UTF-8 encoding of
the url followed by a single slash. -/
def compute_url_hash (url : String) : List Nat := sha256 (strBytes (url ++ "/"))

/-- Sanity vector for the SHA-256 model (FIPS 180-4 example message). -/
theorem sha256_abc_vector : (sha256 (strBytes "abc")).take 4 = [0xba, 0x78, 0x16, 0xbf] := by
  decide

/-! ## URL stores (`db_utils.py`)

A feed store's `urls` table (`url UNIQUE, lastListed, lastGoogleMalicious,
lastYandexMalicious, hash`) is a list of `UrlRow`; SQL `NULL` is `none`. -/

structure UrlRow where
  url : String
  lastListed : Option Int
  lastGoogleMalicious : Option Int
  lastYandexMalicious : Option Int
  hash : List Nat
  deriving DecidableEq

/-- A row of the `maliciousHashPrefixes` table (`hashPrefix, prefixSize, vendor`). -/
structure PrefixRow where
  hashPrefix : List Nat
  prefixSize : Nat
  vendor : String
  deriving DecidableEq

/-- One `INSERT ... ON CONFLICT(url) DO UPDATE SET lastListed=excluded.lastListed`
statement of `db_utils.add_URLs`: on a `url` conflict only `lastListed` is
overwritten, otherwise a fresh row `(url, lastListed, hash)` is appended. -/
def upsertURL (lastListed : Int) (table : List UrlRow) (url : String) : List UrlRow :=
  if table.any (fun r => r.url == url) then
    table.map (fun r => if r.url == url then { r with lastListed := some lastListed } else r)
  else
    table ++ [{ url := url, lastListed := some lastListed, lastGoogleMalicious := none,
                lastYandexMalicious := none, hash := compute_url_hash url }]

/-- Model of `db_utils.add_URLs`: the fetched url batches are upserted in order,
every touched url getting `lastListed := updateTime`. -/
def add_URLs (url_batches : List (List String)) (updateTime : Int)
    (table : List UrlRow) : List UrlRow :=
  url_batches.foldl (fun tbl batch => batch.foldl (upsertURL updateTime) tbl) table

/-- Model of `db_utils.get_matching_hashPrefix_urls`:
`SELECT url FROM urls WHERE substring(urls.hash,1,?) IN
(SELECT hashPrefix FROM malicious.maliciousHashPrefixes WHERE vendor = ?)`. -/
def get_matching_hashPrefix_urls (table : List UrlRow) (malicious : List PrefixRow)
    (prefixSize : Nat) (vendor : String) : List String :=
  (table.filter (fun r =>
      (malicious.filter (fun p => p.vendor == vendor)).any
        (fun p => r.hash.take prefixSize == p.hashPrefix))).map (fun r => r.url)

/-- Model of `db_utils.retrieve_vendor_prefixSizes`:
`SELECT DISTINCT prefixSize FROM maliciousHashPrefixes WHERE vendor = ?`. -/
def retrieve_vendor_prefixSizes (malicious : List PrefixRow) (vendor : String) : List Nat :=
  ((malicious.filter (fun p => p.vendor == vendor)).map (fun p => p.prefixSize)).dedup

/-- Model of `db_utils.identify_suspected_urls`: the per-`prefixSize` results of
`get_matching_hashPrefix_urls` are flattened (`more_itertools.flatten`) into one
list; no deduplication is applied. -/
def identify_suspected_urls (vendor : String) (table : List UrlRow)
    (malicious : List PrefixRow) (prefixSizes : List Nat) : List String :=
  (prefixSizes.map (fun s => get_matching_hashPrefix_urls table malicious s vendor)).flatten

/-- Model of `db_utils.add_maliciousHashPrefixes`:
`DELETE FROM maliciousHashPrefixes WHERE vendor = ?` followed by an insert of
`(hashPrefix, len(hashPrefix), vendor)` for every given prefix. -/
def add_maliciousHashPrefixes (hash_prefixes : List (List Nat)) (vendor : String)
    (malicious : List PrefixRow) : List PrefixRow :=
  malicious.filter (fun r => !(r.vendor == vendor)) ++
    hash_prefixes.map (fun p => { hashPrefix := p, prefixSize := p.length, vendor := vendor })

/-- Model of `db_utils.update_malicious_URLs`: unknown vendors raise `ValueError`
(modelled as `Except.error`) before any database work; known vendors set the
vendor's flag column to `updateTime` on every row whose url is listed, the url
list being processed in chunks of 30000. -/
def update_malicious_URLs (updateTime : Int) (vendor : String)
    (malicious_urls : List String) (table : List UrlRow) : Except String (List UrlRow) :=
  if vendor ≠ "Google" ∧ vendor ≠ "Yandex" then
    Except.error "vendor must be \x22Google\x22 or \x22Yandex\x22"
  else
    Except.ok ((chunked 30000 malicious_urls).foldl
      (fun tbl batch => tbl.map (fun r =>
        if batch.contains r.url then
          if vendor = "Google" then { r with lastGoogleMalicious := some updateTime }
          else { r with lastYandexMalicious := some updateTime }
        else r)) table)

/-- SQL `MAX` over a nullable integer column: `NULL`s are ignored and the
result is `NULL` when no non-`NULL` value exists. -/
def sqlMax (l : List (Option Int)) : Option Int := (l.filterMap id).max?

/-- SQL `=` between nullable integers: comparing with `NULL` never matches. -/
def sqlEq (a b : Option Int) : Bool :=
  match a, b with
  | some x, some y => x == y
  | _, _ => false

/-- Model of the inner worker of `db_utils.retrieve_malicious_URLs`: select the
urls whose `lastGoogleMalicious` / `lastYandexMalicious` equals the respective
column maximum. -/
def retrieve_malicious_URLs_one (table : List UrlRow) : List String :=
  let lastGoogle := sqlMax (table.map (fun r => r.lastGoogleMalicious))
  let lastYandex := sqlMax (table.map (fun r => r.lastYandexMalicious))
  (table.filter (fun r =>
      sqlEq r.lastGoogleMalicious lastGoogle || sqlEq r.lastYandexMalicious lastYandex)).map
    (fun r => r.url)

/-- Model of `db_utils.retrieve_malicious_URLs`: the per-store results are
unioned into one set (modelled by `dedup` of the concatenation). -/
def retrieve_malicious_URLs (tables : List (List UrlRow)) : List String :=
  ((tables.map retrieve_malicious_URLs_one).flatten).dedup

/-! ## IPv4 store (`db_utils.add_IPs`) -/

/-- Dotted-quad rendering of a 32-bit address, big-endian (model of
`socket.inet_ntoa(struct.pack("!I", int_addr))`). -/
def ipStr (addr : Nat) : String :=
  toString (addr / 16777216 % 256) ++ "." ++ toString (addr / 65536 % 256) ++ "." ++
    toString (addr / 256 % 256) ++ "." ++ toString (addr % 256)

/-- Model of `db_utils.int_addr_to_ip_and_hash`. -/
def int_addr_to_ip_and_hash (int_addr : Nat) : String × List Nat :=
  (ipStr int_addr, compute_url_hash (ipStr int_addr))

/-- A row of the ipv4 store's `urls` table, together with its SQLite `_rowid_`
(which `add_IPs` inspects via `SELECT MAX(_rowid_)`). -/
structure IpRow where
  rowid : Nat
  url : String
  lastGoogleMalicious : Option Int
  lastYandexMalicious : Option Int
  hash : List Nat
  deriving DecidableEq

/-- `SELECT MAX(_rowid_) FROM urls`: `NULL` (`none`) on an empty table. -/
def maxRowid (table : List IpRow) : Option Nat := (table.map (fun r => r.rowid)).max?

/-- Model of `db_utils.add_IPs`: when `MAX(_rowid_)` differs from `2 ^ 32` the
table is emptied and repopulated with `(ip, hash)` for every address in
`[0, 2 ^ 32)` (fresh rowids `1..2 ^ 32`); otherwise the table is untouched. -/
def add_IPs (table : List IpRow) : List IpRow :=
  if maxRowid table ≠ some 4294967296 then
    (List.range 4294967296).map (fun i =>
      { rowid := i + 1, url := (int_addr_to_ip_and_hash i).1,
        lastGoogleMalicious := none, lastYandexMalicious := none,
        hash := (int_addr_to_ip_and_hash i).2 })
  else table

/-! ## Safe Browsing client (`safebrowsing.py`)

The network transport is elided: the Lookup flow is split into the batching of
the outbound URLs (`chunked(urls, maximum_url_batch_size)`), the payload built
per batch, and the pure post-processing of the collected JSON responses. -/

/-- The per-vendor `maximum_url_batch_size` set in `SafeBrowsing.__init__`;
`none` models the `ValueError` raised for unknown vendors. -/
def maximum_url_batch_size (vendor : String) : Option Nat :=
  if vendor == "Google" then some 500
  else if vendor == "Yandex" then some 200
  else none

/-- The `threatEntries` of `SafeBrowsing._threat_matches_payload`: one
`{url: "http://" + u}` entry per URL of the batch. -/
def threat_matches_threatEntries (url_list : List String) : List String :=
  url_list.map (fun u => "http://" ++ u)

/-- The lookup batches submitted by `SafeBrowsing.get_malicious_urls`:
`chunked(urls, maximum_url_batch_size)`. -/
def get_malicious_urls_url_batches (cap : Nat) (urls : List String) : List (List String) :=
  chunked cap urls

/-- Model of Python `str.replace` (non-overlapping, left to right), on char
lists with explicit fuel; the fuel is always the input length. -/
def replaceCharsFuel (pat rep : List Char) : Nat → List Char → List Char
  | _, [] => []
  | 0, l => l
  | fuel + 1, c :: cs =>
    if pat.isPrefixOf (c :: cs) then
      rep ++ replaceCharsFuel pat rep fuel ((c :: cs).drop pat.length)
    else c :: replaceCharsFuel pat rep fuel cs

/-- Model of Python `str.replace` on `String` (the source never passes an
empty pattern, for which the identity is returned). -/
def pyReplace (s pat rep : String) : String :=
  if pat.data.isEmpty then s
  else ⟨replaceCharsFuel pat.data rep.data s.data.length s.data⟩

/-- One entry of a threatMatches response's `matches` array; only the
`threat.url` field is read by the source. -/
structure ThreatMatch where
  threat_url : String
  deriving DecidableEq

/-- Model of the response post-processing in `SafeBrowsing.get_malicious_urls`:
a response contributes its `matches` when the key is present (`some`), the
`threat.url` values have `"https://"` then `"http://"` removed by
`str.replace`, and the results are collected through a `set`. -/
def get_malicious_urls_from_responses (responses : List (Option (List ThreatMatch))) : List String :=
  (((responses.filterMap id).flatten).map
    (fun m => pyReplace (pyReplace m.threat_url "https://" "") "http://" "")).dedup

/-! ## Update API parsing (`SafeBrowsing.get_malicious_url_hash_prefixes`) -/

/-- Value of a standard base64 alphabet character. -/
def b64CharVal (c : Char) : Option Nat :=
  if 'A' ≤ c ∧ c ≤ 'Z' then some (c.toNat - 65)
  else if 'a' ≤ c ∧ c ≤ 'z' then some (c.toNat - 97 + 26)
  else if '0' ≤ c ∧ c ≤ '9' then some (c.toNat - 48 + 52)
  else if c = '+' then some 62
  else if c = '/' then some 63
  else none

/-- Reassemble bytes from base64 sextets; a trailing group of two or three
sextets yields one or two bytes, spare bits being discarded. -/
def decodeSextets : List Nat → List Nat
  | a :: b :: c :: d :: rest =>
    (a * 4 + b / 16) :: ((b % 16) * 16 + c / 4) :: ((c % 4) * 64 + d) :: decodeSextets rest
  | [a, b] => [a * 4 + b / 16]
  | [a, b, c] => [a * 4 + b / 16, (b % 16) * 16 + c / 4]
  | _ => []

/-- Model of Python `base64.b64decode` with `validate=False`: characters
outside the alphabet (and `'='`) are discarded, the surviving length must be a
multiple of four, data stops at the first padding `'='`, and a leftover single
sextet is a padding error (`binascii.Error`, modelled as `none`). -/
def b64decode (s : String) : Option (List Nat) :=
  let cs := s.data.filter (fun c => (b64CharVal c).isSome || c == '=')
  if cs.length % 4 ≠ 0 then none
  else
    let body := cs.takeWhile (fun c => !(c == '='))
    if body.length % 4 == 1 then none
    else some (decodeSextets (body.filterMap b64CharVal))

/-- Lexicographic comparison of byte strings (Python `sorted` on `bytes`). -/
def lexLe : List Nat → List Nat → Bool
  | [], _ => true
  | _ :: _, [] => false
  | a :: as, b :: bs => if a < b then true else if b < a then false else lexLe as bs

def insertLex (x : List Nat) : List (List Nat) → List (List Nat)
  | [] => [x]
  | y :: ys => if lexLe x y then x :: y :: ys else y :: insertLex x ys

/-- Sorting of the decoded hash chunks (Python `sorted`). -/
def sortLex (l : List (List Nat)) : List (List Nat) := l.foldr insertLex []

/-- Python `set.update`: add each element not already present. -/
def setUpdate (acc l : List (List Nat)) : List (List Nat) :=
  l.foldl (fun a x => if a.contains x then a else a ++ [x]) acc

/-- The `addition["rawHashes"]` object: a prefix size and base64 text. -/
structure RawHashes where
  prefixSize : Nat
  rawHashes : String
  deriving DecidableEq

/-- One entry of a `listUpdateResponse`'s `additions` array. -/
structure Addition where
  rawHashes : RawHashes
  deriving DecidableEq

/-- One `listUpdateResponse`. -/
structure ListUpdateResponse where
  additions : List Addition
  deriving DecidableEq

/-- One iteration of the parsing loop of
`SafeBrowsing.get_malicious_url_hash_prefixes`: the base64 `rawHashes` is
decoded (a decode failure raises, modelled as `none`, and aborts everything
after it), split into `prefixSize`-byte chunks — `range(0, len, 0)` raising for
a zero prefix size — sorted, and unioned into the accumulator. -/
def processAddition (acc : Option (List (List Nat))) (ad : Addition) :
    Option (List (List Nat)) :=
  match acc with
  | none => none
  | some hp =>
    match b64decode ad.rawHashes.rawHashes with
    | none => none
    | some raw =>
      if ad.rawHashes.prefixSize = 0 then none
      else some (setUpdate hp (sortLex (chunked ad.rawHashes.prefixSize raw)))

/-- Model of the parsing phase of `SafeBrowsing.get_malicious_url_hash_prefixes`
over already-fetched `listUpdateResponses`; `none` models an uncaught
exception escaping the function. -/
def get_malicious_url_hash_prefixes (list_update_responses : List ListUpdateResponse) :
    Option (List (List Nat)) :=
  list_update_responses.foldl (fun acc resp => resp.additions.foldl processAddition acc)
    (some [])

/-! ## Claim C1 — hash contract -/

/-- The digest always has 32 bytes. -/
theorem sha256_length (msg : List Nat) : (sha256 msg).length = 32 := by
  simp [sha256, digestBytes, wordBytes]

/-- C1 (amended): for every URL `u` the stored hash is the 32-byte SHA-256
digest of the UTF-8 encoding of `u` followed by a single slash, and the
function is pure and deterministic; for `u = "example.com"` the digest begins
with the bytes `0x73 0xd9 0x86 0xe0` (not `0xd0 0x3e 0x23 0x4d`). -/
theorem compute_url_hash_contract (url : String) :
    compute_url_hash url = sha256 (strBytes (url ++ "/")) ∧
    (compute_url_hash url).length = 32 ∧
    (compute_url_hash "example.com").take 4 = [0x73, 0xd9, 0x86, 0xe0] :=
  ⟨rfl, sha256_length _, by decide⟩

/-- C1 counterexample: the digest for `"example.com"` does not begin with the
bytes `0xd0 0x3e 0x23 0x4d` claimed by the spec. -/
theorem compute_url_hash_example_cx :
    (compute_url_hash "example.com").take 4 ≠ [0xd0, 0x3e, 0x23, 0x4d] := by decide

/-! ## Claim C2 — suspect identification -/

/-- C2 (amended): membership in `identify_suspected_urls` is the union of the
per-size matches: a url is reported iff some row of the feed store carries it
and, for some requested prefix size, the leading bytes of that row's hash occur
in the vendor's stored prefixes. (Multiplicity is NOT collapsed: see the
counterexample for a url reported twice.) -/
theorem identify_suspected_urls_union (vendor : String) (table : List UrlRow)
    (malicious : List PrefixRow) (prefixSizes : List Nat) (u : String) :
    u ∈ identify_suspected_urls vendor table malicious prefixSizes ↔
      ∃ s ∈ prefixSizes, ∃ r ∈ table, r.url = u ∧
        ∃ p ∈ malicious, p.vendor = vendor ∧ r.hash.take s = p.hashPrefix := by
  unfold identify_suspected_urls get_matching_hashPrefix_urls
  rw [List.mem_flatten]
  constructor
  · rintro ⟨l, hl, hu⟩
    obtain ⟨s, hs, rfl⟩ := List.mem_map.mp hl
    obtain ⟨r, hr, rfl⟩ := List.mem_map.mp hu
    obtain ⟨hrt, hpred⟩ := List.mem_filter.mp hr
    obtain ⟨p, hp, hpe⟩ := List.any_eq_true.mp hpred
    obtain ⟨hpm, hpv⟩ := List.mem_filter.mp hp
    exact ⟨s, hs, r, hrt, rfl, p, hpm, by simpa using hpv, by simpa using hpe⟩
  · rintro ⟨s, hs, r, hr, rfl, p, hp, hpv, hpre⟩
    refine ⟨_, List.mem_map.mpr ⟨s, hs, rfl⟩, List.mem_map.mpr ⟨r, ?_, rfl⟩⟩
    rw [List.mem_filter]
    refine ⟨hr, List.any_eq_true.mpr ⟨p, ?_, by simpa using hpre⟩⟩
    rw [List.mem_filter]
    exact ⟨hp, by simpa using hpv⟩

/-- Feed store with a single url whose hash matches prefixes at two sizes. -/
def c2Table : List UrlRow :=
  [{ url := "example.com", lastListed := some 0, lastGoogleMalicious := none,
     lastYandexMalicious := none, hash := compute_url_hash "example.com" }]

/-- Prefix store carrying a 4-byte and an 8-byte prefix of that hash. -/
def c2PrefixTable : List PrefixRow :=
  [{ hashPrefix := (compute_url_hash "example.com").take 4, prefixSize := 4,
     vendor := "Google" },
   { hashPrefix := (compute_url_hash "example.com").take 8, prefixSize := 8,
     vendor := "Google" }]

/-- C2 counterexample: when the same url's hash matches stored prefixes at two
distinct prefix sizes, `identify_suspected_urls` returns it twice — the
flattened per-size results are not deduplicated. -/
theorem identify_suspected_urls_duplicate_cx :
    (identify_suspected_urls "Google" c2Table c2PrefixTable [4, 8]).count "example.com" = 2 := by
  decide

/-! ## Claim C3 — `lastListed` monotonicity -/

/-- Rows already in the table survive `add_URLs` at their position with the
same url, their `lastListed` either untouched or overwritten by the new
`updateTime`. -/
def PreservesRows (t : Int) (tbl tblNew : List UrlRow) : Prop :=
  ∀ (i : Nat) (r : UrlRow), tbl[i]? = some r →
    ∃ rNew : UrlRow, tblNew[i]? = some rNew ∧ rNew.url = r.url ∧
      (rNew.lastListed = r.lastListed ∨ rNew.lastListed = some t)

theorem preservesRows_refl (t : Int) (tbl : List UrlRow) : PreservesRows t tbl tbl :=
  fun _ r h => ⟨r, h, rfl, Or.inl rfl⟩

theorem preservesRows_trans {t : Int} {tbl₁ tbl₂ tbl₃ : List UrlRow}
    (h₁ : PreservesRows t tbl₁ tbl₂) (h₂ : PreservesRows t tbl₂ tbl₃) :
    PreservesRows t tbl₁ tbl₃ := by
  intro i r hr
  obtain ⟨r₂, hg₂, hu₂, hl₂⟩ := h₁ i r hr
  obtain ⟨r₃, hg₃, hu₃, hl₃⟩ := h₂ i r₂ hg₂
  refine ⟨r₃, hg₃, hu₃.trans hu₂, ?_⟩
  rcases hl₃ with h | h
  · rcases hl₂ with h₂ | h₂
    · exact Or.inl (h.trans h₂)
    · exact Or.inr (h.trans h₂)
  · exact Or.inr h

theorem upsertURL_preservesRows (t : Int) (tbl : List UrlRow) (u : String) :
    PreservesRows t tbl (upsertURL t tbl u) := by
  intro i r hr
  have hi : i < tbl.length := by
    by_contra hge
    rw [List.getElem?_eq_none (by omega)] at hr
    exact Option.noConfusion hr
  unfold upsertURL
  by_cases hc : tbl.any (fun r => r.url == u)
  · rw [if_pos hc]
    refine ⟨if r.url == u then { r with lastListed := some t } else r, ?_, ?_, ?_⟩
    · rw [List.getElem?_map, hr]
      rfl
    · by_cases h : r.url == u <;> simp [h]
    · by_cases h : r.url == u <;> simp [h]
  · rw [if_neg hc]
    refine ⟨r, ?_, rfl, Or.inl rfl⟩
    rw [List.getElem?_append_left hi]
    exact hr

theorem foldl_upsertURL_preservesRows (t : Int) (urls : List String) (tbl : List UrlRow) :
    PreservesRows t tbl (urls.foldl (upsertURL t) tbl) := by
  induction urls generalizing tbl with
  | nil => exact preservesRows_refl t tbl
  | cons u us ih =>
    exact preservesRows_trans (upsertURL_preservesRows t tbl u) (ih _)

theorem add_URLs_preservesRows (url_batches : List (List String)) (t : Int)
    (tbl : List UrlRow) : PreservesRows t tbl (add_URLs url_batches t tbl) := by
  unfold add_URLs
  induction url_batches generalizing tbl with
  | nil => exact preservesRows_refl t tbl
  | cons b bs ih =>
    exact preservesRows_trans (foldl_upsertURL_preservesRows t b tbl) (ih _)

/-- C3 (amended): `add_URLs` either leaves a row's `lastListed` unchanged or
sets it to exactly the supplied `updateTime`; consequently `lastListed` is
monotone non-decreasing whenever the supplied `updateTime` is at least every
`lastListed` already in the table (as in normal, clock-driven operation) — but
not for an arbitrary earlier `updateTime` (see the counterexample). -/
theorem add_URLs_lastListed_monotone (url_batches : List (List String)) (updateTime : Int)
    (table : List UrlRow) (i : Nat) (r rNew : UrlRow)
    (hr : table[i]? = some r)
    (hrNew : (add_URLs url_batches updateTime table)[i]? = some rNew)
    (hle : ∀ s : Int, r.lastListed = some s → s ≤ updateTime) :
    rNew.url = r.url ∧
    (rNew.lastListed = r.lastListed ∨ rNew.lastListed = some updateTime) ∧
    ∀ s sNew : Int, r.lastListed = some s → rNew.lastListed = some sNew → s ≤ sNew := by
  obtain ⟨r₂, hg, hu, hl⟩ := add_URLs_preservesRows url_batches updateTime table i r hr
  rw [hrNew] at hg
  obtain rfl : rNew = r₂ := Option.some.inj hg
  refine ⟨hu, hl, ?_⟩
  intro s sNew hs hsNew
  rcases hl with h | h
  · rw [h, hs] at hsNew
    obtain rfl : s = sNew := Option.some.inj hsNew
    exact le_refl s
  · rw [h] at hsNew
    obtain rfl : updateTime = sNew := Option.some.inj hsNew
    exact hle s hs

/-- Concrete row used to witness C3's amended theorem. -/
def c3Row : UrlRow :=
  { url := "a.com", lastListed := some 5, lastGoogleMalicious := none,
    lastYandexMalicious := none, hash := [] }

/-- Witness for the amended C3 theorem at a concrete table and call. -/
theorem add_URLs_lastListed_monotone_witness :
    ([c3Row][0]? = some c3Row) ∧
    ((add_URLs [["b.com"]] 7 [c3Row])[0]? = some c3Row) ∧
    (∀ s : Int, c3Row.lastListed = some s → s ≤ 7) ∧
    (c3Row.url = c3Row.url ∧
      (c3Row.lastListed = c3Row.lastListed ∨ c3Row.lastListed = some 7) ∧
      ∀ s sNew : Int, c3Row.lastListed = some s → c3Row.lastListed = some sNew → s ≤ sNew) := by
  have hle : ∀ s : Int, c3Row.lastListed = some s → s ≤ 7 := by
    intro s hs
    obtain rfl : (5 : Int) = s := Option.some.inj hs
    decide
  exact ⟨by decide, by decide,
    hle, add_URLs_lastListed_monotone [["b.com"]] 7 [c3Row] 0 c3Row c3Row (by decide)
      (by decide) hle⟩

/-- C3 counterexample: upserting an existing url with an earlier `updateTime`
does decrease its `lastListed` (5 → 3), because the upsert overwrites
unconditionally. -/
theorem add_URLs_lastListed_decreases_cx :
    ((add_URLs [["a.com"]] 5 [])[0]?.map (fun r => r.lastListed) = some (some 5)) ∧
    ((add_URLs [["a.com"]] 3 (add_URLs [["a.com"]] 5 []))[0]?.map (fun r => r.lastListed) =
      some (some 3)) ∧ (3 : Int) < 5 :=
  ⟨by decide, by decide, by decide⟩

/-! ## Claim C5 — Lookup batching -/

theorem chunkedFuel_length {α : Type} (cap : Nat) (hc : 0 < cap) :
    ∀ (fuel : Nat) (l : List α), l.length ≤ fuel →
      (chunkedFuel cap fuel l).length = (l.length + cap - 1) / cap := by
  intro fuel
  induction fuel with
  | zero =>
    intro l hl
    obtain rfl : l = [] := List.eq_nil_of_length_eq_zero (Nat.le_zero.mp hl)
    simp only [chunkedFuel, List.length_nil]
    rw [Nat.div_eq_of_lt (by omega)]
  | succ fuel ih =>
    intro l hl
    cases l with
    | nil =>
      simp only [chunkedFuel, List.length_nil]
      rw [Nat.div_eq_of_lt (by omega)]
    | cons x xs =>
      rw [chunkedFuel]
      have hdrop : ((x :: xs).drop cap).length ≤ fuel := by
        simp only [List.length_drop, List.length_cons]
        simp only [List.length_cons] at hl
        omega
      rw [List.length_cons, ih _ hdrop, List.length_drop, List.length_cons]
      rcases Nat.le_total (xs.length + 1) cap with hle | hle
      · rw [show xs.length + 1 - cap + cap - 1 = cap - 1 by omega,
          show xs.length + 1 + cap - 1 = xs.length + cap by omega,
          Nat.div_eq_of_lt (by omega : cap - 1 < cap),
          Nat.add_div_right _ hc, Nat.div_eq_of_lt (by omega : xs.length < cap)]
      · rw [show xs.length + 1 - cap + cap - 1 = xs.length by omega,
          show xs.length + 1 + cap - 1 = xs.length + cap by omega,
          Nat.add_div_right _ hc]

theorem chunkedFuel_chunk_le {α : Type} (cap : Nat) :
    ∀ (fuel : Nat) (l : List α) (b : List α), b ∈ chunkedFuel cap fuel l →
      b.length ≤ cap := by
  intro fuel
  induction fuel with
  | zero =>
    intro l b hb
    cases l <;> simp [chunkedFuel] at hb
  | succ fuel ih =>
    intro l b hb
    cases l with
    | nil => simp [chunkedFuel] at hb
    | cons x xs =>
      rw [chunkedFuel] at hb
      rcases List.mem_cons.mp hb with rfl | hmem
      · simp [List.length_take]
      · exact ih _ b hmem

theorem chunkedFuel_sum {α : Type} (cap : Nat) (hc : 0 < cap) :
    ∀ (fuel : Nat) (l : List α), l.length ≤ fuel →
      ((chunkedFuel cap fuel l).map List.length).sum = l.length := by
  intro fuel
  induction fuel with
  | zero =>
    intro l hl
    obtain rfl : l = [] := List.eq_nil_of_length_eq_zero (Nat.le_zero.mp hl)
    simp [chunkedFuel]
  | succ fuel ih =>
    intro l hl
    cases l with
    | nil => simp [chunkedFuel]
    | cons x xs =>
      rw [chunkedFuel]
      simp only [List.map_cons, List.sum_cons, List.length_take, List.length_cons,
        ih ((x :: xs).drop cap) (by simp [List.length_drop, List.length_cons] at hl ⊢; omega),
        List.length_drop]
      omega

/-- The vendor cap set in `SafeBrowsing.__init__` is positive. -/
theorem maximum_url_batch_size_pos (vendor : String) (cap : Nat)
    (hcap : maximum_url_batch_size vendor = some cap) : 0 < cap := by
  unfold maximum_url_batch_size at hcap
  by_cases h₁ : (vendor == "Google") = true
  · rw [if_pos h₁] at hcap
    obtain rfl : 500 = cap := Option.some.inj hcap
    omega
  · rw [if_neg h₁] at hcap
    by_cases h₂ : (vendor == "Yandex") = true
    · rw [if_pos h₂] at hcap
      obtain rfl : 200 = cap := Option.some.inj hcap
      omega
    · rw [if_neg h₂] at hcap
      exact absurd hcap (by simp)

/-- C5: for a vendor accepted by `SafeBrowsing.__init__` (cap 500 for Google,
200 for Yandex), `get_malicious_urls` splits the `n` input URLs into exactly
`⌈n / cap⌉` lookup batches whose sizes sum to `n`, and the `threatEntries` of
every outbound threatMatches payload carry at most `cap` URL entries. -/
theorem get_malicious_urls_batching (vendor : String) (cap : Nat) (urls : List String)
    (hcap : maximum_url_batch_size vendor = some cap) :
    (get_malicious_urls_url_batches cap urls).length = (urls.length + cap - 1) / cap ∧
    (∀ b ∈ get_malicious_urls_url_batches cap urls,
        (threat_matches_threatEntries b).length ≤ cap) ∧
    ((get_malicious_urls_url_batches cap urls).map List.length).sum = urls.length := by
  have hc : 0 < cap := maximum_url_batch_size_pos vendor cap hcap
  unfold get_malicious_urls_url_batches chunked
  rw [if_neg (by omega)]
  refine ⟨chunkedFuel_length cap hc urls.length urls le_rfl, ?_,
    chunkedFuel_sum cap hc urls.length urls le_rfl⟩
  intro b hb
  rw [threat_matches_threatEntries, List.length_map]
  exact chunkedFuel_chunk_le cap urls.length urls b hb

/-- Witness for C5 at the spec's own scenario: 1200 suspects, Google vendor,
yielding ⌈1200/500⌉ = 3 batches. -/
theorem get_malicious_urls_batching_witness :
    maximum_url_batch_size "Google" = some 500 ∧
    ((get_malicious_urls_url_batches 500 (List.replicate 1200 "u")).length =
      ((List.replicate 1200 "u").length + 500 - 1) / 500 ∧
     (∀ b ∈ get_malicious_urls_url_batches 500 (List.replicate 1200 "u"),
        (threat_matches_threatEntries b).length ≤ 500) ∧
     ((get_malicious_urls_url_batches 500 (List.replicate 1200 "u")).map List.length).sum =
       (List.replicate 1200 "u").length) :=
  ⟨rfl, get_malicious_urls_batching "Google" 500 (List.replicate 1200 "u") rfl⟩

/-! ## Claim C4 — IPv4 population -/

/-- Read back a decimal digit string (left inverse of `toString` on the
component range, established by exhaustive check below). -/
def readNatChars (cs : List Char) : Nat :=
  cs.foldl (fun n c => n * 10 + (c.toNat - 48)) 0

theorem readNat_toString_256 : ∀ a, a < 256 → readNatChars (toString a).data = a := by
  decide

theorem toString_256_no_dot : ∀ a, a < 256 → '.' ∉ (toString a).data := by
  decide

theorem toString_256_inj {a b : Nat} (ha : a < 256) (hb : b < 256)
    (h : (toString a).data = (toString b).data) : a = b := by
  have := readNat_toString_256 a ha
  rw [h, readNat_toString_256 b hb] at this
  omega

/-- Splitting at a separator absent from both heads is unambiguous. -/
theorem append_dot_inj :
    ∀ (xs₁ : List Char) (xs₂ ys₁ ys₂ : List Char), '.' ∉ xs₁ → '.' ∉ xs₂ →
      xs₁ ++ '.' :: ys₁ = xs₂ ++ '.' :: ys₂ → xs₁ = xs₂ ∧ ys₁ = ys₂ := by
  intro xs₁
  induction xs₁ with
  | nil =>
    intro xs₂ ys₁ ys₂ _ h₂ h
    cases xs₂ with
    | nil => simpa using h
    | cons b bs =>
      simp only [List.nil_append, List.cons_append, List.cons.injEq] at h
      exact absurd (h.1 ▸ List.mem_cons_self b bs) (h.1 ▸ h₂)
  | cons a as ih =>
    intro xs₂ ys₁ ys₂ h₁ h₂ h
    cases xs₂ with
    | nil =>
      simp only [List.nil_append, List.cons_append, List.cons.injEq] at h
      exact absurd (h.1 ▸ List.mem_cons_self a as) (fun hmem => h₁ (h.1 ▸ hmem))
    | cons b bs =>
      simp only [List.cons_append, List.cons.injEq] at h
      obtain ⟨rfl, h'⟩ := h
      obtain ⟨rfl, rfl⟩ := ih bs ys₁ ys₂ (fun hm => h₁ (List.mem_cons_of_mem a hm))
        (fun hm => h₂ (List.mem_cons_of_mem a hm)) h'
      exact ⟨rfl, rfl⟩

theorem ipStr_inj {a b : Nat} (ha : a < 4294967296) (hb : b < 4294967296)
    (h : ipStr a = ipStr b) : a = b := by
  have hdata := congrArg String.data h
  simp only [ipStr, String.data_append, List.append_assoc, List.singleton_append] at hdata
  have hm : ∀ x : Nat, x % 256 < 256 := fun x => Nat.mod_lt _ (by omega)
  obtain ⟨e₁, h₁⟩ := append_dot_inj _ _ _ _
    (toString_256_no_dot _ (hm _)) (toString_256_no_dot _ (hm _)) hdata
  obtain ⟨e₂, h₂⟩ := append_dot_inj _ _ _ _
    (toString_256_no_dot _ (hm _)) (toString_256_no_dot _ (hm _)) h₁
  obtain ⟨e₃, e₄⟩ := append_dot_inj _ _ _ _
    (toString_256_no_dot _ (hm _)) (toString_256_no_dot _ (hm _)) h₂
  have q₁ := toString_256_inj (hm _) (hm _) e₁
  have q₂ := toString_256_inj (hm _) (hm _) e₂
  have q₃ := toString_256_inj (hm _) (hm _) e₃
  have q₄ := toString_256_inj (hm _) (hm _) e₄
  omega

/-- C4 (amended): `add_IPs` regenerates exactly when `SELECT MAX(_rowid_)`
differs from `2 ^ 32` — the code's stand-in for a row count, which coincides
with `COUNT(*)` only while rowids are the contiguous `1..N` the generator
itself produces.  After regeneration the table holds exactly `2 ^ 32` rows and
every dotted-quad `a.b.c.d` with components in `[0, 256)` occurs exactly once;
when `MAX(_rowid_) = 2 ^ 32` the table is left unchanged (even if its row
count differs from `2 ^ 32`, see the counterexample). -/
theorem add_IPs_spec (table : List IpRow) :
    (maxRowid table ≠ some 4294967296 →
      (add_IPs table).length = 4294967296 ∧
      ∀ a b c d : Nat, a < 256 → b < 256 → c < 256 → d < 256 →
        ((add_IPs table).map (fun r => r.url)).count
          (toString a ++ "." ++ toString b ++ "." ++ toString c ++ "." ++ toString d) = 1) ∧
    (maxRowid table = some 4294967296 → add_IPs table = table) := by
  constructor
  · intro hmax
    rw [add_IPs, if_pos hmax]
    constructor
    · rw [List.length_map, List.length_range]
    · intro a b c d ha hb hc hd
      have haddr : ((a * 256 + b) * 256 + c) * 256 + d < 4294967296 := by omega
      have hip : ipStr (((a * 256 + b) * 256 + c) * 256 + d) =
          toString a ++ "." ++ toString b ++ "." ++ toString c ++ "." ++ toString d := by
        unfold ipStr
        rw [show (((a * 256 + b) * 256 + c) * 256 + d) / 16777216 % 256 = a by omega,
          show (((a * 256 + b) * 256 + c) * 256 + d) / 65536 % 256 = b by omega,
          show (((a * 256 + b) * 256 + c) * 256 + d) / 256 % 256 = c by omega,
          show (((a * 256 + b) * 256 + c) * 256 + d) % 256 = d by omega]
      rw [← hip, List.map_map]
      have hfun : ((fun r : IpRow => r.url) ∘ fun i =>
          ({ rowid := i + 1, url := (int_addr_to_ip_and_hash i).1,
             lastGoogleMalicious := none, lastYandexMalicious := none,
             hash := (int_addr_to_ip_and_hash i).2 } : IpRow)) = fun i => ipStr i := rfl
      rw [hfun]
      have hnd : ((List.range 4294967296).map (fun i => ipStr i)).Nodup := by
        refine List.Nodup.map_on ?_ (List.nodup_range _)
        intro x hx y hy hxy
        exact ipStr_inj (List.mem_range.mp hx) (List.mem_range.mp hy) hxy
      exact List.count_eq_one_of_mem hnd
        (List.mem_map.mpr ⟨_, List.mem_range.mpr haddr, rfl⟩)
  · intro hmax
    rw [add_IPs, if_neg (not_not_intro hmax)]

/-- Witness for the amended C4 theorem: the empty table is regenerated and
then contains `0.0.0.0` exactly once among its `2 ^ 32` rows. -/
theorem add_IPs_spec_witness :
    maxRowid ([] : List IpRow) ≠ some 4294967296 ∧ (0 : Nat) < 256 ∧
    (add_IPs ([] : List IpRow)).length = 4294967296 ∧
    ((add_IPs ([] : List IpRow)).map (fun r => r.url)).count
      (toString 0 ++ "." ++ toString 0 ++ "." ++ toString 0 ++ "." ++ toString 0) = 1 := by
  have h := (add_IPs_spec []).1 (by decide)
  exact ⟨by decide, by decide, h.1, h.2 0 0 0 0 (by decide) (by decide) (by decide) (by decide)⟩

/-- A one-row table whose single rowid happens to be `2 ^ 32` (in SQLite such
states arise from insertions with explicit rowids or after deletions). -/
def c4Table : List IpRow :=
  [{ rowid := 4294967296, url := "example.com", lastGoogleMalicious := none,
     lastYandexMalicious := none, hash := [] }]

/-- C4 counterexample: the row count differs from `2 ^ 32`, yet `add_IPs`
leaves the table unchanged — the code's trigger is `MAX(_rowid_) != 2 ** 32`,
not `COUNT(*) != 2 ** 32` as claimed. -/
theorem add_IPs_rowcount_cx :
    c4Table.length ≠ 4294967296 ∧ add_IPs c4Table = c4Table ∧
    (add_IPs c4Table).length ≠ 4294967296 := by
  have h : add_IPs c4Table = c4Table := by
    rw [add_IPs, if_neg (not_not_intro (by decide))]
  exact ⟨by decide, h, h ▸ by decide⟩

/-! ## Claim C6 — Lookup response post-processing -/

/-- C6 (amended): `get_malicious_urls` returns the de-duplicated union of the
responses' `matches[*].threat.url` values with EVERY occurrence of
`"https://"` and then of `"http://"` removed by `str.replace` — not only a
leading scheme prefix (see counterexample). -/
theorem get_malicious_urls_postprocess (responses : List (Option (List ThreatMatch))) :
    (∀ u, u ∈ get_malicious_urls_from_responses responses ↔
      ∃ ms, some ms ∈ responses ∧ ∃ m ∈ ms,
        u = pyReplace (pyReplace m.threat_url "https://" "") "http://" "") ∧
    (get_malicious_urls_from_responses responses).Nodup := by
  constructor
  · intro u
    unfold get_malicious_urls_from_responses
    rw [List.mem_dedup, List.mem_map]
    constructor
    · rintro ⟨m, hm, rfl⟩
      obtain ⟨ms, hms, hmem⟩ := List.mem_flatten.mp hm
      obtain ⟨o, ho, hid⟩ := List.mem_filterMap.mp hms
      refine ⟨ms, ?_, m, hmem, rfl⟩
      rwa [show o = some ms from hid] at ho
    · rintro ⟨ms, hms, m, hm, rfl⟩
      exact ⟨m, List.mem_flatten.mpr ⟨ms, List.mem_filterMap.mpr ⟨some ms, hms, rfl⟩, hm⟩, rfl⟩
  · exact List.nodup_dedup _

/-- A response whose threat url embeds a second scheme occurrence. -/
def c6Responses : List (Option (List ThreatMatch)) :=
  [some [{ threat_url := "http://a.com/?q=http://b.com" }]]

/-- C6 counterexample: the later `http://` occurrence inside the URL is NOT
left intact — `str.replace` removes all occurrences, so the returned string is
`"a.com/?q=b.com"` instead of the claimed `"a.com/?q=http://b.com"`. -/
theorem get_malicious_urls_strip_cx :
    get_malicious_urls_from_responses c6Responses = ["a.com/?q=b.com"] ∧
    "a.com/?q=http://b.com" ∉ get_malicious_urls_from_responses c6Responses := by
  constructor <;> decide

/-! ## Claim C7 — prefix replacement per vendor -/

/-- C7: `add_maliciousHashPrefixes` deletes exactly the given vendor's rows and
inserts one row per supplied prefix with `prefixSize = len(hashPrefix)`; rows
of every other vendor are untouched, and the invariant
`prefixSize == len(hashPrefix)` is preserved. -/
theorem add_maliciousHashPrefixes_replace (hash_prefixes : List (List Nat))
    (vendor : String) (malicious : List PrefixRow) :
    ((add_maliciousHashPrefixes hash_prefixes vendor malicious).filter
        (fun r => !(r.vendor == vendor)) =
      malicious.filter (fun r => !(r.vendor == vendor))) ∧
    ((add_maliciousHashPrefixes hash_prefixes vendor malicious).filter
        (fun r => r.vendor == vendor) =
      hash_prefixes.map (fun p =>
        { hashPrefix := p, prefixSize := p.length, vendor := vendor })) ∧
    ((∀ r ∈ malicious, r.prefixSize = r.hashPrefix.length) →
      ∀ r ∈ add_maliciousHashPrefixes hash_prefixes vendor malicious,
        r.prefixSize = r.hashPrefix.length) := by
  unfold add_maliciousHashPrefixes
  refine ⟨?_, ?_, ?_⟩
  · rw [List.filter_append, List.filter_filter]
    have hnil : (hash_prefixes.map (fun p =>
        ({ hashPrefix := p, prefixSize := p.length, vendor := vendor } : PrefixRow))).filter
          (fun r => !(r.vendor == vendor)) = [] := by
      rw [List.filter_eq_nil_iff]
      intro r hr
      obtain ⟨p, _, rfl⟩ := List.mem_map.mp hr
      simp
    rw [hnil, List.append_nil]
    congr 1
    funext r
    cases h : (r.vendor == vendor) <;> simp [h]
  · rw [List.filter_append]
    have hnil : (malicious.filter (fun r => !(r.vendor == vendor))).filter
        (fun r => r.vendor == vendor) = [] := by
      rw [List.filter_filter, List.filter_eq_nil_iff]
      intro r _
      cases h : (r.vendor == vendor) <;> simp [h]
    have hall : (hash_prefixes.map (fun p =>
        ({ hashPrefix := p, prefixSize := p.length, vendor := vendor } : PrefixRow))).filter
          (fun r => r.vendor == vendor) =
        hash_prefixes.map (fun p =>
          ({ hashPrefix := p, prefixSize := p.length, vendor := vendor } : PrefixRow)) := by
      rw [List.filter_eq_self]
      intro r hr
      obtain ⟨p, _, rfl⟩ := List.mem_map.mp hr
      simp
    rw [hnil, hall, List.nil_append]
  · intro hP r hr
    rcases List.mem_append.mp hr with h | h
    · exact hP r (List.mem_of_mem_filter h)
    · obtain ⟨p, _, rfl⟩ := List.mem_map.mp h
      rfl

/-- Witness for C7 at a concrete store and prefix list. -/
theorem add_maliciousHashPrefixes_replace_witness :
    (∀ r ∈ ([] : List PrefixRow), r.prefixSize = r.hashPrefix.length) ∧
    (∀ r ∈ add_maliciousHashPrefixes [[1, 2]] "Google" [],
        r.prefixSize = r.hashPrefix.length) :=
  ⟨by simp, (add_maliciousHashPrefixes_replace [[1, 2]] "Google" []).2.2 (by simp)⟩

/-! ## Claim C9 — unknown vendor raises before touching the store -/

/-- C9: for any vendor other than `"Google"`/`"Yandex"`,
`update_malicious_URLs` raises `ValueError` (the raise precedes
`create_connection`, so no SQL runs and the store is unchanged — in the model
the error carries no modified table). -/
theorem update_malicious_URLs_unknown_vendor (updateTime : Int) (vendor : String)
    (malicious_urls : List String) (table : List UrlRow)
    (hg : vendor ≠ "Google") (hy : vendor ≠ "Yandex") :
    update_malicious_URLs updateTime vendor malicious_urls table =
      Except.error "vendor must be \x22Google\x22 or \x22Yandex\x22" := by
  unfold update_malicious_URLs
  rw [if_pos ⟨hg, hy⟩]

/-- Witness for C9 with the unknown vendor `"Bing"`. -/
theorem update_malicious_URLs_unknown_vendor_witness :
    ("Bing" ≠ "Google") ∧ ("Bing" ≠ "Yandex") ∧
    update_malicious_URLs 0 "Bing" [] [] =
      Except.error "vendor must be \x22Google\x22 or \x22Yandex\x22" :=
  ⟨by decide, by decide,
    update_malicious_URLs_unknown_vendor 0 "Bing" [] [] (by decide) (by decide)⟩

/-! ## Claim C10 — all-NULL flag columns yield the empty list -/

theorem sqlEq_none_left (b : Option Int) : sqlEq none b = false := by
  cases b <;> rfl

/-- C10: when no row of any store has ever been flagged (both flag columns
`NULL` everywhere), the `NULL` column maxima match no rows and
`retrieve_malicious_URLs` returns the empty list. -/
theorem retrieve_malicious_URLs_all_null (tables : List (List UrlRow))
    (hnull : ∀ table ∈ tables, ∀ r ∈ table,
      r.lastGoogleMalicious = none ∧ r.lastYandexMalicious = none) :
    retrieve_malicious_URLs tables = [] := by
  unfold retrieve_malicious_URLs
  have hone : ∀ table ∈ tables, retrieve_malicious_URLs_one table = [] := by
    intro table ht
    unfold retrieve_malicious_URLs_one
    dsimp only
    have hfilter : table.filter (fun r =>
        sqlEq r.lastGoogleMalicious (sqlMax (table.map (fun r => r.lastGoogleMalicious))) ||
        sqlEq r.lastYandexMalicious (sqlMax (table.map (fun r => r.lastYandexMalicious)))) = [] := by
      rw [List.filter_eq_nil_iff]
      intro r hr
      obtain ⟨hg, hy⟩ := hnull table ht r hr
      rw [hg, hy, sqlEq_none_left, sqlEq_none_left]
      simp
    rw [hfilter, List.map_nil]
  have hflat : (tables.map retrieve_malicious_URLs_one).flatten = [] := by
    rw [List.flatten_eq_nil_iff]
    intro l hl
    obtain ⟨table, ht, rfl⟩ := List.mem_map.mp hl
    exact hone table ht
  rw [hflat]
  rfl

/-- Concrete unflagged store used to witness C10. -/
def c10Table : List UrlRow :=
  [{ url := "a.com", lastListed := some 1, lastGoogleMalicious := none,
     lastYandexMalicious := none, hash := [] }]

/-- Witness for C10 on a one-row, never-flagged store. -/
theorem retrieve_malicious_URLs_all_null_witness :
    (∀ table ∈ [c10Table], ∀ r ∈ table,
      r.lastGoogleMalicious = none ∧ r.lastYandexMalicious = none) ∧
    retrieve_malicious_URLs [c10Table] = [] :=
  ⟨by decide, retrieve_malicious_URLs_all_null [c10Table] (by decide)⟩

/-! ## Claim C8 — decode failures abort the parse -/

/-- An addition whose processing raises: its base64 fails to decode, or its
prefix size is zero (`range` step error). -/
def AdditionBad (ad : Addition) : Prop :=
  b64decode ad.rawHashes.rawHashes = none ∨ ad.rawHashes.prefixSize = 0

instance (ad : Addition) : Decidable (AdditionBad ad) := by
  unfold AdditionBad
  infer_instance

theorem foldl_processAddition_none (ads : List Addition) :
    ads.foldl processAddition none = none := by
  induction ads with
  | nil => rfl
  | cons a as ih =>
    rw [List.foldl_cons]
    exact ih

theorem outer_foldl_none (rs : List ListUpdateResponse) :
    rs.foldl (fun acc r => r.additions.foldl processAddition acc) none = none := by
  induction rs with
  | nil => rfl
  | cons r rs ih =>
    rw [List.foldl_cons, foldl_processAddition_none]
    exact ih

theorem inner_fold_none_iff (ads : List Addition) : ∀ hp : List (List Nat),
    (ads.foldl processAddition (some hp) = none) ↔ ∃ ad ∈ ads, AdditionBad ad := by
  induction ads with
  | nil => simp [List.foldl_nil]
  | cons a as ih =>
    intro hp
    rw [List.foldl_cons]
    by_cases hbad : AdditionBad a
    · have hnone : processAddition (some hp) a = none := by
        rcases hbad with h | h
        · unfold processAddition
          rw [h]
        · unfold processAddition
          cases hdec : b64decode a.rawHashes.rawHashes with
          | none => rfl
          | some raw =>
            dsimp only
            rw [if_pos h]
      rw [hnone, foldl_processAddition_none]
      exact ⟨fun _ => ⟨a, List.mem_cons_self a as, hbad⟩, fun _ => rfl⟩
    · have hsome : ∃ hp₂, processAddition (some hp) a = some hp₂ := by
        unfold AdditionBad at hbad
        push_neg at hbad
        obtain ⟨h₁, h₂⟩ := hbad
        unfold processAddition
        cases hdec : b64decode a.rawHashes.rawHashes with
        | none => exact absurd hdec h₁
        | some raw =>
          dsimp only
          rw [if_neg h₂]
          exact ⟨_, rfl⟩
      obtain ⟨hp₂, heq⟩ := hsome
      rw [heq, ih hp₂]
      constructor
      · rintro ⟨ad, ha, hb⟩
        exact ⟨ad, List.mem_cons_of_mem a ha, hb⟩
      · rintro ⟨ad, ha, hb⟩
        rcases List.mem_cons.mp ha with rfl | ha₂
        · exact absurd hb hbad
        · exact ⟨ad, ha₂, hb⟩

theorem outer_fold_none_iff (rs : List ListUpdateResponse) : ∀ hp : List (List Nat),
    (rs.foldl (fun acc r => r.additions.foldl processAddition acc) (some hp) = none) ↔
      ∃ r ∈ rs, ∃ ad ∈ r.additions, AdditionBad ad := by
  induction rs with
  | nil => simp [List.foldl_nil]
  | cons r rs ih =>
    intro hp
    rw [List.foldl_cons]
    by_cases hbad : ∃ ad ∈ r.additions, AdditionBad ad
    · rw [(inner_fold_none_iff r.additions hp).mpr hbad, outer_foldl_none]
      exact ⟨fun _ => ⟨r, List.mem_cons_self r rs, hbad⟩, fun _ => rfl⟩
    · have hsome : ∃ hp₂, r.additions.foldl processAddition (some hp) = some hp₂ := by
        cases hres : r.additions.foldl processAddition (some hp) with
        | none => exact absurd ((inner_fold_none_iff r.additions hp).mp hres) hbad
        | some v => exact ⟨v, rfl⟩
      obtain ⟨hp₂, heq⟩ := hsome
      rw [heq, ih hp₂]
      constructor
      · rintro ⟨rr, hr, hads⟩
        exact ⟨rr, List.mem_cons_of_mem r hr, hads⟩
      · rintro ⟨rr, hr, hads⟩
        rcases List.mem_cons.mp hr with rfl | hr₂
        · exact absurd hads hbad
        · exact ⟨rr, hr₂, hads⟩

/-- C8 (amended): a decode failure in ANY addition makes
`get_malicious_url_hash_prefixes` raise (result `none`) instead of skipping
that addition; the parse succeeds iff every addition decodes and has a
non-zero prefix size. (A decoded length that is not a multiple of
`prefixSize` is NOT an error — the trailing short chunk is kept.) -/
theorem get_malicious_url_hash_prefixes_decode_failure (rs : List ListUpdateResponse) :
    get_malicious_url_hash_prefixes rs = none ↔
      ∃ r ∈ rs, ∃ ad ∈ r.additions,
        b64decode ad.rawHashes.rawHashes = none ∨ ad.rawHashes.prefixSize = 0 :=
  outer_fold_none_iff rs []

/-- A response with one well-formed addition followed by one whose base64 is
malformed (five data characters: incorrect padding). -/
def c8Responses : List ListUpdateResponse :=
  [{ additions := [{ rawHashes := { prefixSize := 4, rawHashes := "AAAAAAAAAAA=" } },
                   { rawHashes := { prefixSize := 4, rawHashes := "AAAAA" } }] }]

/-- The same response without the malformed addition. -/
def c8ResponsesGood : List ListUpdateResponse :=
  [{ additions := [{ rawHashes := { prefixSize := 4, rawHashes := "AAAAAAAAAAA=" } }] }]

/-- C8 counterexample: the malformed second addition aborts the whole parse
(`none`, i.e. the exception escapes) instead of being skipped — the
well-formed first addition alone parses to a non-empty prefix set. -/
theorem get_malicious_url_hash_prefixes_raises_cx :
    get_malicious_url_hash_prefixes c8Responses = none ∧
    get_malicious_url_hash_prefixes c8ResponsesGood = some [[0, 0, 0, 0]] := by
  constructor <;> decide
